import Mathlib

/-!
Verification development for the Qiskit example repository containing two
algorithm engines:

* `DEUTSCH_JOZSA/deutsch_jozsa.py` — oracle synthesis, circuit construction
  and result classification for the Deutsch-Jozsa algorithm;
* `SHORS/shors.py` — inverse-QFT circuit synthesis, continued-fraction
  classical post-processing and the factoring control loop of Shor's
  algorithm.

Circuits are embedded as lists of gate operations; Python integers become
`Nat`/`Int`, Python `Fraction` values become `ℚ`, and phase angles are
recorded as their exact rational coefficient of π.  Randomness and the
quantum simulator are modelled by explicit input streams: the factor loop
consumes a list of (random base, measured bitstring) attempts.
-/

/-- A gate operation, the common currency of both engines (spec §3 GateOp).
`cp` stores the phase angle as its rational coefficient of π, which is exact
for every angle the two source files emit. -/
inductive Gate where
  | h (q : ℕ)
  | x (q : ℕ)
  | cx (c t : ℕ)
  | mcx (cs : List ℕ) (t : ℕ)
  | cp (angleOverPi : ℚ) (c t : ℕ)
  | swap (a b : ℕ)
  | measure (qs : List ℕ) (cs : List ℕ)
  deriving DecidableEq, Repr

/-- Embedding of `ShorsAlgorithm._apply_qft_inverse` (shors.py lines 20-29):
symmetric swaps over the register, then for each qubit `j` the controlled
phase rotations `cp(-π/2^(j-k))` for every `k < j`, followed by a Hadamard
on `j`.  `qubits[-(i+1)]` is the element at index `len - 1 - i`. -/
def apply_qft_inverse (qubits : List ℕ) : List Gate :=
  ((List.range (qubits.length / 2)).map fun i =>
    Gate.swap (qubits.getD i 0) (qubits.getD (qubits.length - 1 - i) 0))
  ++ ((List.range qubits.length).map fun j =>
      ((List.range j).map fun k =>
        Gate.cp (-(1 / 2 ^ (j - k))) (qubits.getD k 0) (qubits.getD j 0))
      ++ [Gate.h (qubits.getD j 0)]).flatten

/-- Model of Python `format(i, '0nb')` for `i < 2^n`: the `n`-character
binary string of `i`, most significant bit first; character `j` is bit
`n - 1 - j` of `i`. -/
def formatBinary (i n : ℕ) : List Char :=
  (List.range n).map fun j => if i.testBit (n - 1 - j) then '1' else '0'

/-- Embedding of `DeutschJozsaAlgorithm._create_oracle`
(deutsch_jozsa.py lines 42-86).  `qubits` is the input register and
`target` the output qubit.  The custom branch walks every index
`i < 2^n`, and when the bitstring holds `'1'` there it flips the qubits at
the `'0'` positions of `i`'s binary string, applies a (multi-)controlled
bit-flip, and flips the same qubits back. -/
def create_oracle (oracle_type : String) (constant_value : ℤ)
    (custom_bitstring : List Char) (qubits : List ℕ) (target : ℕ) : List Gate :=
  if oracle_type = "constant" then
    if constant_value = 1 then [Gate.x target] else []
  else if oracle_type = "balanced" then
    Gate.cx (qubits.getD 0 0) target ::
      (List.range' 1 (qubits.length - 1)).map fun i => Gate.cx (qubits.getD i 0) target
  else if oracle_type = "custom" then
    ((List.range (2 ^ qubits.length)).map fun i =>
      if custom_bitstring.getD i ' ' = '1' then
        (((List.range qubits.length).map fun j =>
          if (formatBinary i qubits.length).getD j ' ' = '0' then
            [Gate.x (qubits.getD j 0)] else []).flatten)
        ++ [if qubits.length = 1 then Gate.cx (qubits.getD 0 0) target
            else Gate.mcx qubits target]
        ++ (((List.range qubits.length).map fun j =>
          if (formatBinary i qubits.length).getD j ' ' = '0' then
            [Gate.x (qubits.getD j 0)] else []).flatten)
      else []).flatten
  else []

/-- A circuit description: quantum registers, classical registers and the
ordered gate list (measurements included as gates). -/
structure Circuit where
  qregs : List (String × ℕ)
  cregs : List (String × ℕ)
  gates : List Gate
  deriving DecidableEq

/-- Configuration stored on a `DeutschJozsaAlgorithm` object after
`__init__` has validated its arguments. -/
structure DJConfig where
  n_qubits : ℕ
  oracle_type : String
  constant_value : ℤ
  custom_bitstring : Option (List Char)
  shots : ℤ
  deriving DecidableEq

/-- Embedding of the circuit construction performed by
`DeutschJozsaAlgorithm.run` (deutsch_jozsa.py lines 88-108): registers
`input` (n qubits, indices `0..n-1`), `output` (one qubit, index `n`),
classical register `c`; bit-flip on the output, Hadamards, the oracle,
Hadamards on the input register, and measurement of the input register. -/
def run_build (cfg : DJConfig) : Circuit :=
  ⟨[("input", cfg.n_qubits), ("output", 1)],
   [("c", cfg.n_qubits)],
   [Gate.x cfg.n_qubits]
     ++ ((List.range cfg.n_qubits).map fun i => Gate.h i)
     ++ [Gate.h cfg.n_qubits]
     ++ create_oracle cfg.oracle_type cfg.constant_value
          (cfg.custom_bitstring.getD []) (List.range cfg.n_qubits) cfg.n_qubits
     ++ ((List.range cfg.n_qubits).map fun i => Gate.h i)
     ++ [Gate.measure (List.range cfg.n_qubits) (List.range cfg.n_qubits)]⟩

/-- Embedding of the circuit construction performed by
`DeutschJozsaAlgorithm.get_circuit` (deutsch_jozsa.py lines 122-145). -/
def get_circuit (cfg : DJConfig) : Circuit :=
  ⟨[("input", cfg.n_qubits), ("output", 1)],
   [("c", cfg.n_qubits)],
   [Gate.x cfg.n_qubits]
     ++ ((List.range cfg.n_qubits).map fun i => Gate.h i)
     ++ [Gate.h cfg.n_qubits]
     ++ create_oracle cfg.oracle_type cfg.constant_value
          (cfg.custom_bitstring.getD []) (List.range cfg.n_qubits) cfg.n_qubits
     ++ ((List.range cfg.n_qubits).map fun i => Gate.h i)
     ++ [Gate.measure (List.range cfg.n_qubits) (List.range cfg.n_qubits)]⟩

/-- Embedding of the result interpretation in `DeutschJozsaAlgorithm.run`
(deutsch_jozsa.py lines 117-120): measurement counts are a mapping from
classical bitstrings to occurrence counts; Python's `shots / 2` is exact
real division, modelled in `ℚ`. -/
def run_interpret (n_qubits : ℕ) (shots : ℤ) (counts : List (List Char × ℕ)) : String :=
  match counts.lookup (List.replicate n_qubits '0') with
  | some c => if (shots : ℚ) / 2 < (c : ℚ) then "constant" else "balanced"
  | none => "balanced"

/-- Embedding of `DeutschJozsaAlgorithm.validate_oracle`
(deutsch_jozsa.py lines 147-163).  The final branch models Python's
implicit `None` fall-through, unreachable for validated configurations. -/
def validate_oracle (oracle_type : String) (custom_bitstring : List Char) : String :=
  if oracle_type = "constant" then "constant"
  else if oracle_type = "balanced" then "balanced"
  else if oracle_type = "custom" then
    if custom_bitstring.count '1' = 0 ∨ custom_bitstring.count '1' = custom_bitstring.length
    then "constant"
    else if custom_bitstring.count '1' = custom_bitstring.length / 2 then "balanced"
    else "neither (ones: " ++ toString (custom_bitstring.count '1') ++ ", zeros: "
          ++ toString (custom_bitstring.length - custom_bitstring.count '1') ++ ")"
  else ""

/-- Embedding of `DeutschJozsaAlgorithm.__init__`
(deutsch_jozsa.py lines 7-34).  `gen` models the random balanced bitstring
produced by `_generate_random_balanced_oracle` when a custom oracle is
requested without a bitstring. -/
def dj_init (n_qubits : ℤ) (oracle_type : String) (constant_value : ℤ)
    (custom_bitstring : Option (List Char)) (shots : ℤ) (gen : List Char) :
    Except String DJConfig :=
  if n_qubits ≤ 0 then Except.error "N must be a positive integer."
  else if oracle_type ≠ "constant" ∧ oracle_type ≠ "balanced" ∧ oracle_type ≠ "custom" then
    Except.error "Oracle type must be one of: constant, balanced, custom"
  else if constant_value ≠ 0 ∧ constant_value ≠ 1 then
    Except.error "Constant value must be 0 or 1."
  else
    match custom_bitstring with
    | none =>
      if shots ≤ 0 then Except.error "Number of shots must be a positive integer."
      else Except.ok ⟨n_qubits.toNat, oracle_type, constant_value,
        if oracle_type = "custom" then some gen else none, shots⟩
    | some s =>
      if oracle_type = "custom" ∧ s.length ≠ 2 ^ n_qubits.toNat then
        Except.error "Custom bitstring length must be 2^n"
      else if oracle_type = "custom" ∧ ¬ (s.all fun c => c == '0' || c == '1') then
        Except.error "Custom bitstring must contain only 0 and 1"
      else if shots ≤ 0 then Except.error "Number of shots must be a positive integer."
      else Except.ok ⟨n_qubits.toNat, oracle_type, constant_value, some s, shots⟩

/-- Bit length of `N`, the length of Python `bin(N)[2:]` for `N ≥ 1`
(`self.n = len(bin(N)[2:])`, shors.py line 17): the number of exponents
`k` with `2^k ≤ N`. -/
def bitLen (N : ℕ) : ℕ :=
  ((List.range (N + 1)).filter fun k => decide (2 ^ k ≤ N)).length

/-- Value of a measured bitstring read as a binary integer, most
significant bit first: Python `int(measurement, 2)`. -/
def bitsToNat (bs : List Bool) : ℕ :=
  bs.foldl (fun acc b => 2 * acc + if b then 1 else 0) 0

/-- State of the while-loop inside CPython `Fraction.limit_denominator`:
the convergents `p0/q0` and `p1/q1` and the remaining fraction `n/d`. -/
structure LdState where
  p0 : ℕ
  q0 : ℕ
  p1 : ℕ
  q1 : ℕ
  n : ℕ
  d : ℕ
  deriving DecidableEq

/-- The while-loop of CPython `Fraction.limit_denominator` for a
nonnegative fraction, with an explicit fuel argument (the loop terminates
because `d` strictly decreases; every caller passes enough fuel). -/
def ldLoop (maxDen : ℕ) : ℕ → LdState → LdState
  | 0, st => st
  | fuel + 1, st =>
    if st.q0 + (st.n / st.d) * st.q1 > maxDen then st
    else ldLoop maxDen fuel
      ⟨st.p1, st.q1, st.p0 + (st.n / st.d) * st.p1, st.q0 + (st.n / st.d) * st.q1,
       st.d, st.n % st.d⟩

/-- Model of CPython `Fraction.limit_denominator` for a nonnegative
rational (the only arguments shors.py produces): if the denominator
already satisfies the bound return the value unchanged, otherwise run the
continued-fraction loop and return the closer of the two candidate
approximations, preferring the final convergent on ties. -/
def limit_denominator (x : ℚ) (maxDen : ℕ) : ℚ :=
  if x.den ≤ maxDen then x
  else
    let st := ldLoop maxDen (x.den + 1) ⟨0, 1, 1, 0, x.num.toNat, x.den⟩
    let k := (maxDen - st.q0) / st.q1
    let bound1 : ℚ := ((st.p0 + k * st.p1 : ℕ) : ℚ) / ((st.q0 + k * st.q1 : ℕ) : ℚ)
    let bound2 : ℚ := (st.p1 : ℚ) / (st.q1 : ℚ)
    if |bound2 - x| ≤ |bound1 - x| then bound2 else bound1

/-- Embedding of `ShorsAlgorithm._classical_post_processing` (shors.py
lines 73-77): read the measured bitstring as an integer, divide by
`2^(2n)` to get the phase fraction, approximate it by a rational with
denominator at most `N`, and return that rational's denominator as the
candidate period. -/
def classical_post_processing (N : ℕ) (measurement : List Bool) : ℕ :=
  (limit_denominator ((bitsToNat measurement : ℚ) / 2 ^ (2 * bitLen N)) N).den

/-- The period-validation step of `ShorsAlgorithm.factor` (shors.py lines
93-104): `none` means the attempt is rejected and the loop retries with a
fresh random base.  `gcd(x - 1, N)` is taken over `ℤ`, exactly as Python's
`math.gcd` computes it when `x = 0`. -/
def period_check (N a r : ℕ) : Option (ℕ × ℕ) :=
  if r % 2 ≠ 0 then none
  else
    if Nat.gcd (a ^ (r / 2) % N + 1) N
        * Int.gcd ((a ^ (r / 2) % N : ℕ) - 1 : ℤ) N ≠ N then none
    else some (Nat.gcd (a ^ (r / 2) % N + 1) N,
               Int.gcd ((a ^ (r / 2) % N : ℕ) - 1 : ℤ) N)

/-- Embedding of `ShorsAlgorithm.factor` (shors.py lines 79-104).  The
random bases and the most-frequent measured bitstrings returned by the
simulator are modelled as an explicit stream of attempts; the second
component counts how many quantum circuits were run.  An exhausted stream
yields `none`, cutting off the otherwise unbounded retry recursion. -/
def factor (N : ℕ) (attempts : List (ℕ × List Bool)) : Option (ℕ × ℕ) × ℕ :=
  if N % 2 = 0 then (some (2, N / 2), 0)
  else
    match attempts with
    | [] => (none, 0)
    | (a, meas) :: rest =>
      if Nat.gcd a N ≠ 1 then (some (Nat.gcd a N, N / Nat.gcd a N), 0)
      else
        match period_check N a (classical_post_processing N meas) with
        | none => ((factor N rest).1, (factor N rest).2 + 1)
        | some pq => (some pq, 1)

/-- Invariant of the `limit_denominator` while-loop, relating a loop state
to the original fraction `num/den` (in lowest terms, with `0 < num < den`)
and the denominator bound `M`: `p0/q0` and `p1/q1` are consecutive
convergents with unimodular determinant, the linear forms reconstruct
`num` and `den` from the remaining fraction `n/d`, and the denominators
are within the bound.  It holds from the second loop state onward. -/
structure LdInv (M num den : ℕ) (st : LdState) : Prop where
  hd1 : 1 ≤ st.d
  hdn : st.d < st.n
  hgcd : Nat.gcd st.n st.d = 1
  hq1 : 1 ≤ st.q1
  hq01 : st.q0 ≤ st.q1
  hq1M : st.q1 ≤ M
  hq0 : st.q0 = 0 → st.q1 = 1
  hden : st.q1 * st.n + st.q0 * st.d = den
  hnum : st.p1 * st.n + st.p0 * st.d = num
  hdet : st.p0 * st.q1 = st.p1 * st.q0 + 1 ∨ st.p1 * st.q0 = st.p0 * st.q1 + 1

theorem getD_range_of_lt {m i : ℕ} (h : i < m) : (List.range m).getD i 0 = i := by
  rw [List.getD_eq_getElem _ _ (by simpa using h)]
  simp

/-- C6: for a counting register of `m` qubits the inverse QFT emits exactly
`⌊m/2⌋` swaps pairing qubit `i` with qubit `m-1-i`, then for each qubit `j`
in order a controlled-phase rotation of angle `-π/2^(j-k)` controlled by
qubit `k` targeting qubit `j` for every `k < j` in ascending order,
followed by a Hadamard on qubit `j`. -/
theorem qft_inverse_gate_sequence (m : ℕ) :
    apply_qft_inverse (List.range m) =
      ((List.range (m / 2)).map fun i => Gate.swap i (m - 1 - i))
      ++ ((List.range m).map fun j =>
          ((List.range j).map fun k => Gate.cp (-(1 / 2 ^ (j - k))) k j)
          ++ [Gate.h j]).flatten := by
  unfold apply_qft_inverse
  rw [List.length_range]
  congr 1
  · refine List.map_congr_left fun i hi => ?_
    rw [List.mem_range] at hi
    have h1 : i < m := lt_of_lt_of_le hi (Nat.div_le_self m 2)
    have h2 : m - 1 - i < m := by omega
    rw [getD_range_of_lt h1, getD_range_of_lt h2]
  · congr 1
    refine List.map_congr_left fun j hj => ?_
    rw [List.mem_range] at hj
    rw [getD_range_of_lt hj]
    congr 1
    refine List.map_congr_left fun k hk => ?_
    rw [List.mem_range] at hk
    rw [getD_range_of_lt (lt_trans hk hj)]

theorem getD_map_range {β : Type} (f : ℕ → β) {n j : ℕ} (h : j < n) (d : β) :
    ((List.range n).map f).getD j d = f j := by
  rw [List.getD_eq_getElem _ _ (by simpa using h)]
  simp

theorem flatten_map_ite {α β : Type} (l : List α) (p : α → Prop) [DecidablePred p]
    (f : α → β) :
    (l.map fun a => if p a then [f a] else []).flatten
      = (l.filter fun a => decide (p a)).map f := by
  induction l with
  | nil => simp
  | cons a l ih =>
    by_cases h : p a <;> simp [h, ih]

/-- C9: the circuit that `run` builds and simulates and the circuit that
`get_circuit` returns are identical: same registers, same gate sequence in
the same order, same measurement mapping. -/
theorem run_and_get_circuit_agree (cfg : DJConfig) : run_build cfg = get_circuit cfg :=
  rfl

/-- C3: for every measurement-counts mapping and positive shot count, the
Deutsch-Jozsa classification returns "constant" exactly when the count of
the all-zero `n`-bit string strictly exceeds `shots / 2`, and "balanced"
in every other case, including when the all-zero string is absent. -/
theorem run_classification_rule (n : ℕ) (shots : ℤ) (counts : List (List Char × ℕ))
    (hs : 0 < shots) :
    (run_interpret n shots counts = "constant" ↔
      ∃ c : ℕ, counts.lookup (List.replicate n '0') = some c ∧ shots < 2 * (c : ℤ)) ∧
    (run_interpret n shots counts = "balanced" ↔
      ¬ ∃ c : ℕ, counts.lookup (List.replicate n '0') = some c ∧ shots < 2 * (c : ℤ)) := by
  unfold run_interpret
  have hne : ("balanced" : String) ≠ "constant" := by decide
  rcases h : counts.lookup (List.replicate n '0') with _ | c
  · constructor
    · constructor
      · intro hc
        exact absurd hc hne
      · rintro ⟨c, hc, -⟩
        simp at hc
    · constructor
      · rintro - ⟨c, hc, -⟩
        simp at hc
      · intro _
        rfl
  · have key : ((shots : ℚ) / 2 < (c : ℚ)) ↔ shots < 2 * (c : ℤ) := by
      rw [div_lt_iff₀ (by norm_num : (0 : ℚ) < 2)]
      constructor
      · intro h'
        exact_mod_cast (by linarith : (shots : ℚ) < ((2 : ℚ) * (c : ℚ)))
      · intro h'
        have h'' : (shots : ℚ) < ((2 * (c : ℤ) : ℤ) : ℚ) := by exact_mod_cast h'
        push_cast at h''
        linarith
    by_cases hc : (shots : ℚ) / 2 < (c : ℚ)
    · rw [show (match some c with
        | some c => if (shots : ℚ) / 2 < (c : ℚ) then "constant" else "balanced"
        | none => "balanced") = if (shots : ℚ) / 2 < (c : ℚ) then "constant" else "balanced"
          from rfl, if_pos hc]
      constructor
      · constructor
        · intro _
          exact ⟨c, rfl, key.mp hc⟩
        · intro _
          rfl
      · constructor
        · intro hb
          exact absurd hb.symm hne
        · intro hn
          exact absurd ⟨c, rfl, key.mp hc⟩ hn
    · rw [show (match some c with
        | some c => if (shots : ℚ) / 2 < (c : ℚ) then "constant" else "balanced"
        | none => "balanced") = if (shots : ℚ) / 2 < (c : ℚ) then "constant" else "balanced"
          from rfl, if_neg hc]
      constructor
      · constructor
        · intro hb
          exact absurd hb hne
        · rintro ⟨c', hc', hlt⟩
          obtain rfl : c = c' := by simpa using hc'
          exact absurd (key.mpr hlt) hc
      · constructor
        · rintro - ⟨c', hc', hlt⟩
          obtain rfl : c = c' := by simpa using hc'
          exact absurd (key.mpr hlt) hc
        · intro _
          rfl

/-- Closed witness for C3 at a concrete mapping and shot count. -/
theorem run_classification_rule_witness :
    (run_interpret 1 2 [([ '0' ], 2)] = "constant" ↔
      ∃ c : ℕ, [([ '0' ], 2)].lookup (List.replicate 1 '0') = some c ∧ 2 < 2 * (c : ℤ)) ∧
    (run_interpret 1 2 [([ '0' ], 2)] = "balanced" ↔
      ¬ ∃ c : ℕ, [([ '0' ], 2)].lookup (List.replicate 1 '0') = some c ∧ 2 < 2 * (c : ℤ)) :=
  run_classification_rule 1 2 [([ '0' ], 2)] (by norm_num)

/-- C5: `validate_oracle` returns "constant" for a constant spec,
"balanced" for a balanced spec, and for a custom bitstring of length `2^n`
it returns "constant" when the count of '1' characters is `0` or `2^n`,
"balanced" when it is exactly `2^(n-1)`, and otherwise a "neither" result
reporting both the ones count and the zeros count. -/
theorem validate_oracle_classification (n : ℕ) (bits : List Char) (hn : 1 ≤ n)
    (hlen : bits.length = 2 ^ n) :
    validate_oracle "constant" bits = "constant" ∧
    validate_oracle "balanced" bits = "balanced" ∧
    ((bits.count '1' = 0 ∨ bits.count '1' = 2 ^ n) →
      validate_oracle "custom" bits = "constant") ∧
    (bits.count '1' = 2 ^ (n - 1) → validate_oracle "custom" bits = "balanced") ∧
    (bits.count '1' ≠ 0 → bits.count '1' ≠ 2 ^ n → bits.count '1' ≠ 2 ^ (n - 1) →
      validate_oracle "custom" bits =
        "neither (ones: " ++ toString (bits.count '1') ++ ", zeros: "
          ++ toString (2 ^ n - bits.count '1') ++ ")") := by
  have hhalf : 2 ^ n / 2 = 2 ^ (n - 1) := by
    rw [show 2 ^ n = 2 ^ (n - 1) * 2 by rw [← pow_succ]; congr 1; omega]
    exact Nat.mul_div_cancel _ (by norm_num)
  have hlt : 2 ^ (n - 1) < 2 ^ n := Nat.pow_lt_pow_right (by norm_num) (by omega)
  have hc1 : ¬ (("custom" : String) = "constant") := by decide
  have hc2 : ¬ (("custom" : String) = "balanced") := by decide
  refine ⟨rfl, rfl, ?_, ?_, ?_⟩
  · intro hone
    unfold validate_oracle
    rw [if_neg hc1, if_neg hc2, if_pos rfl, hlen, if_pos hone]
  · intro hone
    unfold validate_oracle
    rw [if_neg hc1, if_neg hc2, if_pos rfl, hlen,
      if_neg (by
        rw [hone]; push_neg
        exact ⟨Nat.pos_iff_ne_zero.mp (Nat.pos_pow_of_pos _ (by norm_num)), Nat.ne_of_lt hlt⟩),
      if_pos (by rw [hone, hhalf])]
  · intro h0 htop hhalfne
    unfold validate_oracle
    rw [if_neg hc1, if_neg hc2, if_pos rfl, hlen,
      if_neg (by push_neg; exact ⟨h0, htop⟩),
      if_neg (by rw [hhalf]; exact hhalfne)]

/-- Closed witness for C5 at `n = 2` and the bitstring "1101". -/
theorem validate_oracle_classification_witness :
    validate_oracle "constant" [ '1', '1', '0', '1' ] = "constant" ∧
    validate_oracle "balanced" [ '1', '1', '0', '1' ] = "balanced" ∧
    (([ '1', '1', '0', '1' ].count '1' = 0 ∨ [ '1', '1', '0', '1' ].count '1' = 2 ^ 2) →
      validate_oracle "custom" [ '1', '1', '0', '1' ] = "constant") ∧
    ([ '1', '1', '0', '1' ].count '1' = 2 ^ (2 - 1) →
      validate_oracle "custom" [ '1', '1', '0', '1' ] = "balanced") ∧
    ([ '1', '1', '0', '1' ].count '1' ≠ 0 → [ '1', '1', '0', '1' ].count '1' ≠ 2 ^ 2 →
      [ '1', '1', '0', '1' ].count '1' ≠ 2 ^ (2 - 1) →
      validate_oracle "custom" [ '1', '1', '0', '1' ] =
        "neither (ones: " ++ toString ([ '1', '1', '0', '1' ].count '1') ++ ", zeros: "
          ++ toString (2 ^ 2 - [ '1', '1', '0', '1' ].count '1') ++ ")") :=
  validate_oracle_classification 2 [ '1', '1', '0', '1' ] (by norm_num) (by decide)

/-- C4: for a valid custom bitstring of length `2^n` the oracle synthesizer
emits, for each index `i` in ascending order with `bitstring[i] = '1'` and
nothing for indices holding `'0'`: bit-flips on exactly those input qubits
whose character of `i`'s `n`-bit binary representation is `0`, then one
multi-controlled bit-flip from all `n` input qubits onto the output qubit
(an ordinary controlled bit-flip when `n = 1`), then the same bit-flips
again. -/
theorem custom_oracle_gate_sequence (n target : ℕ) (cv : ℤ) (bits : List Char)
    (hn : 1 ≤ n) (hlen : bits.length = 2 ^ n)
    (hchars : ∀ c ∈ bits, c = '0' ∨ c = '1') :
    create_oracle "custom" cv bits (List.range n) target =
      ((List.range (2 ^ n)).map fun i =>
        if bits.getD i ' ' = '1' then
          (((List.range n).filter fun j => !(i.testBit (n - 1 - j))).map fun j => Gate.x j)
          ++ [if n = 1 then Gate.cx 0 target else Gate.mcx (List.range n) target]
          ++ (((List.range n).filter fun j => !(i.testBit (n - 1 - j))).map fun j => Gate.x j)
        else []).flatten := by
  have hflips : ∀ i : ℕ,
      ((List.range n).map fun j =>
        if (formatBinary i n).getD j ' ' = '0' then [Gate.x ((List.range n).getD j 0)]
        else []).flatten
      = ((List.range n).filter fun j => !(i.testBit (n - 1 - j))).map fun j => Gate.x j := by
    intro i
    have base := flatten_map_ite (List.range n)
      (fun j => (formatBinary i n).getD j ' ' = '0')
      (fun j => Gate.x ((List.range n).getD j 0))
    rw [base, List.filter_congr (fun j hj => ?_)]
    · refine List.map_congr_left fun j hj => ?_
      have hj' : j < n := by
        have := List.mem_of_mem_filter hj
        rwa [List.mem_range] at this
      rw [getD_range_of_lt hj']
    · rw [List.mem_range] at hj
      unfold formatBinary
      rw [getD_map_range _ hj]
      by_cases ht : i.testBit (n - 1 - j)
      · simp [ht]
      · simp [ht]
  unfold create_oracle
  rw [if_neg (by decide : ¬ (("custom" : String) = "constant")),
      if_neg (by decide : ¬ (("custom" : String) = "balanced")),
      if_pos rfl, List.length_range, getD_range_of_lt hn]
  refine congrArg List.flatten (List.map_congr_left fun i hi => ?_)
  by_cases hb : bits.getD i ' ' = '1'
  · rw [if_pos hb, if_pos hb, hflips i]
  · rw [if_neg hb, if_neg hb]

/-- Closed witness for C4 at `n = 1`, bitstring "10", output qubit 1. -/
theorem custom_oracle_gate_sequence_witness :
    create_oracle "custom" 0 [ '1', '0' ] (List.range 1) 1 =
      ((List.range (2 ^ 1)).map fun i =>
        if [ '1', '0' ].getD i ' ' = '1' then
          (((List.range 1).filter fun j => !(i.testBit (1 - 1 - j))).map fun j => Gate.x j)
          ++ [if 1 = 1 then Gate.cx 0 1 else Gate.mcx (List.range 1) 1]
          ++ (((List.range 1).filter fun j => !(i.testBit (1 - 1 - j))).map fun j => Gate.x j)
        else []).flatten :=
  custom_oracle_gate_sequence 1 1 0 [ '1', '0' ] (by norm_num) (by decide) (by decide)

/-- C8: for `n ≥ 1`, a custom oracle whose supplied bitstring has length
different from `2^n` or contains a character other than '0' and '1' fails
at construction time with one of the two invalid-oracle errors — before
any gate is emitted, since gates are only built from a successfully
constructed `DJConfig`; and no valid bitstring produces those errors. -/
theorem custom_bitstring_validation (n cv shots : ℤ) (s gen : List Char)
    (hn : 1 ≤ n) (hcv : cv = 0 ∨ cv = 1) :
    ((s.length ≠ 2 ^ n.toNat ∨ ∃ c ∈ s, ¬(c = '0' ∨ c = '1')) ↔
      ∃ e, dj_init n "custom" cv (some s) shots gen = Except.error e ∧
        (e = "Custom bitstring length must be 2^n" ∨
         e = "Custom bitstring must contain only 0 and 1")) := by
  unfold dj_init
  rw [if_neg (by omega : ¬ n ≤ 0),
      if_neg (fun h => h.2.2 rfl),
      if_neg (fun h => by rcases hcv with rfl | rfl; exacts [h.1 rfl, h.2 rfl])]
  dsimp only
  have hall : (s.all fun c => c == '0' || c == '1') = true ↔ ∀ c ∈ s, c = '0' ∨ c = '1' := by
    simp [List.all_eq_true]
  by_cases hL : s.length ≠ 2 ^ n.toNat
  · rw [if_pos ⟨rfl, hL⟩]
    exact ⟨fun _ => ⟨_, rfl, Or.inl rfl⟩, fun _ => Or.inl hL⟩
  · push_neg at hL
    rw [if_neg (fun h => h.2 hL)]
    by_cases hC : (s.all fun c => c == '0' || c == '1') = true
    · rw [if_neg (fun h => h.2 hC)]
      constructor
      · rintro (h | ⟨c, hc, hbad⟩)
        · exact absurd hL h
        · exact absurd (hall.mp hC c hc) hbad
      · rintro ⟨e, he, hmsg⟩
        by_cases hsh : shots ≤ 0
        · rw [if_pos hsh] at he
          have : e = "Number of shots must be a positive integer." :=
            (Except.error.injEq _ _).mp he.symm
          subst this
          rcases hmsg with h | h <;> exact absurd h (by decide)
        · rw [if_neg hsh] at he
          exact Except.noConfusion he
    · rw [if_pos ⟨rfl, hC⟩]
      constructor
      · intro _
        exact ⟨_, rfl, Or.inr rfl⟩
      · intro _
        right
        have hnot := mt hall.mpr hC
        push_neg at hnot
        obtain ⟨c, hc, h0, h1⟩ := hnot
        exact ⟨c, hc, fun h => by rcases h with h | h; exacts [h0 h, h1 h]⟩

/-- Closed witness for C8: a bitstring of length 1 for `n = 1` is rejected. -/
theorem custom_bitstring_validation_witness :
    (([ '0' ].length ≠ 2 ^ (1 : ℤ).toNat ∨ ∃ c ∈ [ '0' ], ¬(c = '0' ∨ c = '1')) ↔
      ∃ e, dj_init 1 "custom" 0 (some [ '0' ]) 10 [] = Except.error e ∧
        (e = "Custom bitstring length must be 2^n" ∨
         e = "Custom bitstring must contain only 0 and 1")) :=
  custom_bitstring_validation 1 0 10 [ '0' ] [] (by norm_num) (Or.inl rfl)

theorem period_check_eq_some {N a r : ℕ} {pq : ℕ × ℕ}
    (h : period_check N a r = some pq) :
    pq = (Nat.gcd (a ^ (r / 2) % N + 1) N, Int.gcd ((a ^ (r / 2) % N : ℕ) - 1 : ℤ) N) ∧
    pq.1 * pq.2 = N := by
  unfold period_check at h
  by_cases hodd : r % 2 ≠ 0
  · rw [if_pos hodd] at h
    cases h
  · rw [if_neg hodd] at h
    by_cases hp : Nat.gcd (a ^ (r / 2) % N + 1) N
        * Int.gcd ((a ^ (r / 2) % N : ℕ) - 1 : ℤ) N ≠ N
    · rw [if_pos hp] at h
      cases h
    · rw [if_neg hp] at h
      push_neg at hp
      obtain rfl := Option.some.inj h
      exact ⟨rfl, hp⟩

theorem period_check_eq_none {N a r : ℕ} :
    period_check N a r = none ↔
      (r % 2 = 1 ∨ Nat.gcd (a ^ (r / 2) % N + 1) N
        * Int.gcd ((a ^ (r / 2) % N : ℕ) - 1 : ℤ) N ≠ N) := by
  unfold period_check
  by_cases hodd : r % 2 ≠ 0
  · rw [if_pos hodd]
    exact ⟨fun _ => Or.inl (by omega), fun _ => rfl⟩
  · rw [if_neg hodd]
    by_cases hp : Nat.gcd (a ^ (r / 2) % N + 1) N
        * Int.gcd ((a ^ (r / 2) % N : ℕ) - 1 : ℤ) N ≠ N
    · rw [if_pos hp]
      exact ⟨fun _ => Or.inr hp, fun _ => rfl⟩
    · rw [if_neg hp]
      constructor
      · intro hc
        cases hc
      · rintro (h | h)
        · omega
        · exact absurd h hp

theorem factor_quantum_retry (N a : ℕ) (meas : List Bool) (rest : List (ℕ × List Bool))
    (hodd : N % 2 = 1) (hgcd : Nat.gcd a N = 1)
    (hpc : period_check N a (classical_post_processing N meas) = none) :
    factor N ((a, meas) :: rest) = ((factor N rest).1, (factor N rest).2 + 1) := by
  rw [factor.eq_def]
  rw [if_neg (by omega : ¬ N % 2 = 0)]
  dsimp only
  rw [if_neg (fun hh => hh hgcd), hpc]

theorem factor_quantum_accept (N a : ℕ) (meas : List Bool) (rest : List (ℕ × List Bool))
    (pq : ℕ × ℕ) (hodd : N % 2 = 1) (hgcd : Nat.gcd a N = 1)
    (hpc : period_check N a (classical_post_processing N meas) = some pq) :
    factor N ((a, meas) :: rest) = (some pq, 1) := by
  rw [factor.eq_def]
  rw [if_neg (by omega : ¬ N % 2 = 0)]
  dsimp only
  rw [if_neg (fun hh => hh hgcd), hpc]

/-- C1: the factor loop retries exactly when the candidate period `r` is
odd or `gcd(x+1, N) * gcd(x-1, N) ≠ N` with `x = a^(r/2) mod N`; a
non-retrying quantum return is the pair `(gcd(x+1, N), gcd(x-1, N))`; a
rejected attempt sends the loop on to the next fresh random base; and
every pair the loop returns on any path multiplies to `N`. -/
theorem factor_loop_correct (N : ℕ) (hN : 1 < N) :
    (∀ a r, period_check N a r = none ↔
      (r % 2 = 1 ∨ Nat.gcd (a ^ (r / 2) % N + 1) N
        * Int.gcd ((a ^ (r / 2) % N : ℕ) - 1 : ℤ) N ≠ N)) ∧
    (∀ a r pq, period_check N a r = some pq →
      pq = (Nat.gcd (a ^ (r / 2) % N + 1) N,
            Int.gcd ((a ^ (r / 2) % N : ℕ) - 1 : ℤ) N)) ∧
    (∀ a meas rest, N % 2 = 1 → Nat.gcd a N = 1 →
      period_check N a (classical_post_processing N meas) = none →
      (factor N ((a, meas) :: rest)).1 = (factor N rest).1) ∧
    (∀ attempts pq, (factor N attempts).1 = some pq → pq.1 * pq.2 = N) := by
  refine ⟨fun a r => period_check_eq_none, fun a r pq h => (period_check_eq_some h).1,
    fun a meas rest h1 h2 h3 => by rw [factor_quantum_retry N a meas rest h1 h2 h3], ?_⟩
  intro attempts
  induction attempts with
  | nil =>
    intro pq h
    rw [factor.eq_def] at h
    by_cases he : N % 2 = 0
    · rw [if_pos he] at h
      obtain rfl : (2, N / 2) = pq := Option.some.inj h
      exact Nat.mul_div_cancel' (Nat.dvd_of_mod_eq_zero he)
    · rw [if_neg he] at h
      cases h
  | cons hd rest ih =>
    intro pq h
    obtain ⟨a, meas⟩ := hd
    rw [factor.eq_def] at h
    by_cases he : N % 2 = 0
    · rw [if_pos he] at h
      obtain rfl : (2, N / 2) = pq := Option.some.inj h
      exact Nat.mul_div_cancel' (Nat.dvd_of_mod_eq_zero he)
    · rw [if_neg he] at h
      dsimp only at h
      by_cases hg : Nat.gcd a N ≠ 1
      · rw [if_pos hg] at h
        obtain rfl : (Nat.gcd a N, N / Nat.gcd a N) = pq := Option.some.inj h
        exact Nat.mul_div_cancel' (Nat.gcd_dvd_right a N)
      · rw [if_neg hg] at h
        rcases hpc : period_check N a (classical_post_processing N meas) with _ | pq'
        · rw [hpc] at h
          exact ih pq h
        · rw [hpc] at h
          obtain rfl : pq' = pq := Option.some.inj h
          exact (period_check_eq_some hpc).2

/-- Closed witness for C1: the retry criterion instantiated at
`N = 15`, `a = 2`, `r = 4`. -/
theorem factor_loop_correct_witness :
    period_check 15 2 4 = none ↔
      (4 % 2 = 1 ∨ Nat.gcd (2 ^ (4 / 2) % 15 + 1) 15
        * Int.gcd ((2 ^ (4 / 2) % 15 : ℕ) - 1 : ℤ) 15 ≠ 15) :=
  (factor_loop_correct 15 (by norm_num)).1 2 4

/-- C7: for every even `N` the loop returns `(2, N/2)` at once, running no
quantum circuit (`factor 2` returns `(2, 1)`), and on an odd `N` a random
base sharing a factor `g = gcd(a, N) ≠ 1` returns `(g, N/g)` without
building any circuit (circuit count 0). -/
theorem factor_short_circuits (N : ℕ) (attempts : List (ℕ × List Bool)) :
    (N % 2 = 0 → factor N attempts = (some (2, N / 2), 0)) ∧
    (∀ a meas rest, N % 2 = 1 → Nat.gcd a N ≠ 1 →
      factor N ((a, meas) :: rest) = (some (Nat.gcd a N, N / Nat.gcd a N), 0)) ∧
    factor 2 attempts = (some (2, 1), 0) := by
  refine ⟨fun he => ?_, fun a meas rest hodd hg => ?_, ?_⟩
  · rw [factor.eq_def, if_pos he]
  · rw [factor.eq_def, if_neg (by omega : ¬ N % 2 = 0)]
    dsimp only
    rw [if_pos hg]
  · rw [factor.eq_def, if_pos (by norm_num : (2 : ℕ) % 2 = 0)]

/-- Closed witness for C7: the gcd short-circuit at `N = 21`, `a = 3`, and
the even short-circuit at `N = 2`. -/
theorem factor_short_circuits_witness :
    factor 21 [(3, [])] = (some (Nat.gcd 3 21, 21 / Nat.gcd 3 21), 0) ∧
    factor 2 [] = (some (2, 1), 0) :=
  ⟨(factor_short_circuits 21 [(3, [])]).2.1 3 [] [] (by norm_num) (by decide),
   (factor_short_circuits 2 []).2.2⟩

theorem period_check_x_one {N a r : ℕ} (hN : 1 < N) (hodd : N % 2 = 1)
    (hr : r % 2 = 0) (hx : a ^ (r / 2) % N = 1) :
    period_check N a r = some (1, N) := by
  have h2 : Nat.gcd 2 N = 1 := Nat.coprime_two_left.mpr (Nat.odd_iff.mpr hodd)
  unfold period_check
  rw [if_neg (by omega : ¬ r % 2 ≠ 0), hx]
  rw [show (1 : ℕ) + 1 = 2 from rfl, h2]
  rw [show (((1 : ℕ) : ℤ) - 1) = 0 by norm_num, Int.gcd_zero_left, Int.natAbs_ofNat]
  rw [if_neg (by omega : ¬ 1 * N ≠ N)]

theorem period_check_x_pred {N a r : ℕ} (hN : 1 < N) (hodd : N % 2 = 1)
    (hr : r % 2 = 0) (hx : a ^ (r / 2) % N = N - 1) :
    period_check N a r = some (N, 1) := by
  have hg2 : Nat.gcd (N - 2) N = 1 := by
    have hd2 : Nat.gcd (N - 2) N ∣ 2 := by
      have h1 := Nat.gcd_dvd_left (N - 2) N
      have h2 := Nat.gcd_dvd_right (N - 2) N
      have h3 := Nat.dvd_sub' h2 h1
      rwa [show N - (N - 2) = 2 by omega] at h3
    have hdN := Nat.gcd_dvd_right (N - 2) N
    rcases (Nat.dvd_prime Nat.prime_two).mp hd2 with h | h
    · exact h
    · rw [h] at hdN
      omega
  have hxz : (((N - 1 : ℕ) : ℤ) - 1) = ((N - 2 : ℕ) : ℤ) := by omega
  unfold period_check
  rw [if_neg (by omega : ¬ r % 2 ≠ 0), hx, hxz]
  rw [show N - 1 + 1 = N by omega, Nat.gcd_self]
  rw [Int.gcd_natCast_natCast, hg2]
  rw [if_neg (by omega : ¬ N * 1 ≠ N)]

/-- C10: the success check `factor1 * factor2 = N` does not force a
nontrivial factorization: on the quantum path with an even candidate
period, `x = a^(r/2) mod N = 1` is accepted with the trivial pair
`(1, N)` and `x = N - 1` with `(N, 1)`, and the loop returns that pair. -/
theorem trivial_factor_accepted (N a r : ℕ) (hN : 1 < N) (hodd : N % 2 = 1)
    (hgcd : Nat.gcd a N = 1) (hr : r % 2 = 0) :
    (a ^ (r / 2) % N = 1 → period_check N a r = some (1, N)) ∧
    (a ^ (r / 2) % N = N - 1 → period_check N a r = some (N, 1)) ∧
    (∀ meas rest, classical_post_processing N meas % 2 = 0 →
      a ^ (classical_post_processing N meas / 2) % N = 1 →
      factor N ((a, meas) :: rest) = (some (1, N), 1)) :=
  ⟨fun hx => period_check_x_one hN hodd hr hx,
   fun hx => period_check_x_pred hN hodd hr hx,
   fun meas rest h1 h2 => factor_quantum_accept N a meas rest (1, N) hodd hgcd
     (period_check_x_one hN hodd h1 h2)⟩

theorem cpp_fifteen_sixtyfour :
    classical_post_processing 15 [false, true, false, false, false, false, false, false] = 4 := by
  unfold classical_post_processing
  rw [show bitsToNat [false, true, false, false, false, false, false, false] = 64 from by decide,
      show bitLen 15 = 4 from by decide]
  unfold limit_denominator
  push_cast
  split_ifs with hden h2
  · norm_num
  all_goals
    exfalso
    apply hden
    norm_num

/-- Closed witness for C10: at `N = 15`, `a = 4` the measured bitstring
`01000000` yields candidate period 4, `4^2 mod 15 = 1`, and the loop
accepts the trivial pair `(1, 15)` after one circuit run. -/
theorem trivial_factor_accepted_witness :
    factor 15 [(4, [false, true, false, false, false, false, false, false])] =
      (some (1, 15), 1) :=
  (trivial_factor_accepted 15 4 4 (by norm_num) (by norm_num) (by decide)
    (by norm_num)).2.2 [false, true, false, false, false, false, false, false] []
    (by rw [cpp_fifteen_sixtyfour]) (by rw [cpp_fifteen_sixtyfour]; decide)

theorem bitsToNat_aux (bs : List Bool) : ∀ acc : ℕ,
    bs.foldl (fun a b => 2 * a + if b then 1 else 0) acc < (acc + 1) * 2 ^ bs.length := by
  induction bs with
  | nil =>
    intro acc
    simp
  | cons b bs ih =>
    intro acc
    rw [List.foldl_cons, List.length_cons]
    calc bs.foldl (fun a b => 2 * a + if b then 1 else 0) (2 * acc + if b then 1 else 0)
        < ((2 * acc + if b then 1 else 0) + 1) * 2 ^ bs.length := ih _
      _ ≤ (acc + 1) * 2 ^ (bs.length + 1) := by
          have hb : (if b then 1 else 0) ≤ 1 := by split <;> norm_num
          rw [pow_succ]
          calc ((2 * acc + if b then 1 else 0) + 1) * 2 ^ bs.length
              ≤ (2 * (acc + 1)) * 2 ^ bs.length := Nat.mul_le_mul_right _ (by omega)
            _ = (acc + 1) * (2 ^ bs.length * 2) := by ring

theorem bitsToNat_lt (bs : List Bool) : bitsToNat bs < 2 ^ bs.length := by
  have h := bitsToNat_aux bs 0
  simpa [bitsToNat] using h

theorem den_div_le (p : ℤ) (q : ℕ) (hq : 0 < q) : ((p : ℚ) / (q : ℚ)).den ≤ q := by
  have h := Rat.den_dvd p (q : ℤ)
  rw [Rat.divInt_eq_div] at h
  have h' : ((p : ℚ) / (q : ℚ)).den ∣ q := by
    have hcast : (((q : ℤ) : ℚ)) = (q : ℚ) := by push_cast; rfl
    rw [hcast] at h
    exact_mod_cast h
  exact Nat.le_of_dvd hq h'

theorem farey_gap (A B : ℤ) (C D : ℕ) (hC : 0 < C) (hD : 0 < D)
    (hdet : B * C - A * D = 1) (p : ℤ) (q : ℕ) (hq : 0 < q)
    (h1 : (A : ℚ) / C < (p : ℚ) / q) (h2 : (p : ℚ) / q < (B : ℚ) / D) :
    C + D ≤ q := by
  have hCq : (0 : ℚ) < (C : ℚ) := by exact_mod_cast hC
  have hDq : (0 : ℚ) < (D : ℚ) := by exact_mod_cast hD
  have hqq : (0 : ℚ) < (q : ℚ) := by exact_mod_cast hq
  rw [div_lt_div_iff hCq hqq] at h1
  rw [div_lt_div_iff hqq hDq] at h2
  have e1 : A * (q : ℤ) + 1 ≤ p * C := by
    have : A * (q : ℤ) < p * C := by exact_mod_cast h1
    omega
  have e2 : p * (D : ℤ) + 1 ≤ B * q := by
    have : p * (D : ℤ) < B * q := by exact_mod_cast h2
    omega
  have key : (q : ℤ) = C * (B * q - p * D) + D * (p * C - A * q) := by
    linear_combination (-(q : ℤ)) * hdet
  have t1 : (1 : ℤ) ≤ B * q - p * D := by linarith
  have t2 : (1 : ℤ) ≤ p * C - A * q := by linarith
  have hCz : (0 : ℤ) ≤ (C : ℤ) := by positivity
  have hDz : (0 : ℤ) ≤ (D : ℤ) := by positivity
  have b1 : (C : ℤ) * 1 ≤ C * (B * q - p * D) := by
    exact mul_le_mul_of_nonneg_left t1 hCz
  have b2 : (D : ℤ) * 1 ≤ D * (p * C - A * q) := by
    exact mul_le_mul_of_nonneg_left t2 hDz
  have : ((C : ℤ) + D) ≤ q := by
    rw [key]
    linarith
  exact_mod_cast this

theorem between_best (X lo hi r y : ℚ) (hlo : lo ≤ X) (hhi : X ≤ hi)
    (h1 : |X - r| ≤ |X - lo|) (h2 : |X - r| ≤ |X - hi|)
    (hy : y ≤ lo ∨ hi ≤ y) : |X - r| ≤ |X - y| := by
  rcases hy with hy | hy
  · calc |X - r| ≤ |X - lo| := h1
      _ ≤ |X - y| := by
          rw [abs_of_nonneg (by linarith), abs_of_nonneg (by linarith)]
          linarith
  · calc |X - r| ≤ |X - hi| := h2
      _ ≤ |X - y| := by
          rw [abs_of_nonpos (by linarith), abs_of_nonpos (by linarith)]
          linarith

theorem pair_best (x : ℚ) (M : ℕ) (A B : ℕ) (C D : ℕ)
    (hC : 0 < C) (hD : 0 < D) (hsum : M < C + D)
    (hdet : (B : ℤ) * C - (A : ℤ) * D = 1)
    (hlo : (A : ℚ) / C ≤ x) (hhi : x ≤ (B : ℚ) / D) (r : ℚ)
    (hr1 : |x - r| ≤ |x - (A : ℚ) / C|) (hr2 : |x - r| ≤ |x - (B : ℚ) / D|) :
    ∀ y : ℚ, y.den ≤ M → |x - r| ≤ |x - y| := by
  intro y hy
  apply between_best x ((A : ℚ) / C) ((B : ℚ) / D) r y hlo hhi hr1 hr2
  by_contra hcon
  push_neg at hcon
  obtain ⟨h1, h2⟩ := hcon
  have hq : 0 < y.den := y.pos
  have hge := farey_gap (A : ℤ) (B : ℤ) C D hC hD hdet y.num y.den hq
    (by push_cast; rw [Rat.num_div_den y]; exact h1)
    (by push_cast; rw [Rat.num_div_den y]; exact h2)
  omega

theorem ldLoop_start (M num den : ℕ) (hM : 1 ≤ M) (h01 : 1 ≤ num) (hnd : num < den) :
    ldLoop M (den + 1) ⟨0, 1, 1, 0, num, den⟩ = ldLoop M den ⟨1, 0, 0, 1, den, num⟩ := by
  simp only [ldLoop]
  rw [show num / den = 0 from Nat.div_eq_of_lt hnd]
  rw [if_neg (by omega : ¬ 1 + 0 * 0 > M)]
  rw [Nat.mod_eq_of_lt hnd]

theorem ldLoop_inv (M num den : ℕ) (hMden : M < den) :
    ∀ fuel st, LdInv M num den st → st.d ≤ fuel →
      LdInv M num den (ldLoop M fuel st) ∧
      M < (ldLoop M fuel st).q0
          + ((ldLoop M fuel st).n / (ldLoop M fuel st).d) * (ldLoop M fuel st).q1 := by
  intro fuel
  induction fuel with
  | zero =>
    intro st hinv hd
    exact absurd hd (by have := hinv.hd1; omega)
  | succ fuel ih =>
    intro st hinv hd
    by_cases hbreak : st.q0 + (st.n / st.d) * st.q1 > M
    · simp only [ldLoop]
      rw [if_pos hbreak]
      exact ⟨hinv, hbreak⟩
    · simp only [ldLoop]
      rw [if_neg hbreak]
      push_neg at hbreak
      have hd1 := hinv.hd1
      have hdn := hinv.hdn
      have hq1 := hinv.hq1
      have ha1 : 1 ≤ st.n / st.d := (Nat.one_le_div_iff (by omega)).mpr (by omega)
      have hmodlt : st.n % st.d < st.d := Nat.mod_lt _ (by omega)
      have hndm : st.d * (st.n / st.d) + st.n % st.d = st.n := Nat.div_add_mod st.n st.d
      have hmod1 : 1 ≤ st.n % st.d := by
        by_contra hcon
        push_neg at hcon
        have hzero : st.n % st.d = 0 := by omega
        have hdvd : st.d ∣ st.n := Nat.dvd_of_mod_eq_zero hzero
        have hdle : st.d ∣ Nat.gcd st.n st.d := Nat.dvd_gcd hdvd dvd_rfl
        rw [hinv.hgcd] at hdle
        have hdeq : st.d = 1 := Nat.dvd_one.mp hdle
        have hsum : st.q0 + (st.n / st.d) * st.q1 = den := by
          calc st.q0 + (st.n / st.d) * st.q1
              = st.q1 * (st.n / st.d) + st.q0 * st.d := by rw [hdeq]; ring
            _ = st.q1 * st.n + st.q0 * st.d := by rw [hdeq, Nat.div_one]
            _ = den := hinv.hden
        omega
      refine ih _ ⟨hmod1, hmodlt, ?_, ?_, ?_, ?_, ?_, ?_, ?_, ?_⟩
        (show st.n % st.d ≤ fuel by omega)
      · show Nat.gcd st.d (st.n % st.d) = 1
        rw [Nat.gcd_comm, ← Nat.gcd_rec, Nat.gcd_comm]
        exact hinv.hgcd
      · show 1 ≤ st.q0 + (st.n / st.d) * st.q1
        have hmul : 1 * 1 ≤ (st.n / st.d) * st.q1 := Nat.mul_le_mul ha1 hq1
        omega
      · show st.q1 ≤ st.q0 + (st.n / st.d) * st.q1
        have hmul : 1 * st.q1 ≤ (st.n / st.d) * st.q1 := Nat.mul_le_mul_right _ ha1
        omega
      · exact hbreak
      · intro hzero
        exact absurd (show st.q1 = 0 from hzero) (by omega)
      · show (st.q0 + (st.n / st.d) * st.q1) * st.d + st.q1 * (st.n % st.d) = den
        calc (st.q0 + (st.n / st.d) * st.q1) * st.d + st.q1 * (st.n % st.d)
            = st.q1 * (st.d * (st.n / st.d) + st.n % st.d) + st.q0 * st.d := by ring
          _ = st.q1 * st.n + st.q0 * st.d := by rw [hndm]
          _ = den := hinv.hden
      · show (st.p0 + (st.n / st.d) * st.p1) * st.d + st.p1 * (st.n % st.d) = num
        calc (st.p0 + (st.n / st.d) * st.p1) * st.d + st.p1 * (st.n % st.d)
            = st.p1 * (st.d * (st.n / st.d) + st.n % st.d) + st.p0 * st.d := by ring
          _ = st.p1 * st.n + st.p0 * st.d := by rw [hndm]
          _ = num := hinv.hnum
      · rcases hinv.hdet with hc | hc
        · right
          show (st.p0 + (st.n / st.d) * st.p1) * st.q1
            = st.p1 * (st.q0 + (st.n / st.d) * st.q1) + 1
          calc (st.p0 + (st.n / st.d) * st.p1) * st.q1
              = st.p0 * st.q1 + (st.n / st.d) * st.p1 * st.q1 := by ring
            _ = st.p1 * st.q0 + 1 + (st.n / st.d) * st.p1 * st.q1 := by rw [hc]
            _ = st.p1 * (st.q0 + (st.n / st.d) * st.q1) + 1 := by ring
        · left
          show st.p1 * (st.q0 + (st.n / st.d) * st.q1)
            = (st.p0 + (st.n / st.d) * st.p1) * st.q1 + 1
          calc st.p1 * (st.q0 + (st.n / st.d) * st.q1)
              = st.p1 * st.q0 + (st.n / st.d) * st.p1 * st.q1 := by ring
            _ = st.p0 * st.q1 + 1 + (st.n / st.d) * st.p1 * st.q1 := by rw [hc]
            _ = (st.p0 + (st.n / st.d) * st.p1) * st.q1 + 1 := by ring

theorem ld_final (M num den : ℕ) (x : ℚ) (st : LdState) (k : ℕ)
    (hM : 1 ≤ M) (hMden : M < den)
    (hinv : LdInv M num den st)
    (hbreak : M < st.q0 + st.n / st.d * st.q1)
    (hx : x = (num : ℚ) / (den : ℚ))
    (hk : k = (M - st.q0) / st.q1) :
    (((st.p0 + k * st.p1 : ℕ) : ℚ) / ((st.q0 + k * st.q1 : ℕ) : ℚ)).den ≤ M ∧
    ((st.p1 : ℚ) / (st.q1 : ℚ)).den ≤ M ∧
    ∀ r : ℚ,
      |x - r| ≤ |x - ((st.p0 + k * st.p1 : ℕ) : ℚ) / ((st.q0 + k * st.q1 : ℕ) : ℚ)| →
      |x - r| ≤ |x - (st.p1 : ℚ) / (st.q1 : ℚ)| →
      ∀ y : ℚ, y.den ≤ M → |x - r| ≤ |x - y| := by
  have hq1 := hinv.hq1
  have hd1 := hinv.hd1
  have hq0M : st.q0 ≤ M := le_trans hinv.hq01 hinv.hq1M
  have hkmul : k * st.q1 ≤ M - st.q0 := by
    rw [hk]
    exact Nat.div_mul_le_self _ _
  have hkq : st.q0 + k * st.q1 ≤ M := by omega
  have hD1 : 1 ≤ st.q0 + k * st.q1 := by
    rcases Nat.eq_zero_or_pos st.q0 with h0 | h0
    · have hq11 : st.q1 = 1 := hinv.hq0 h0
      have hkM : k = M := by rw [hk, h0, hq11]; simp
      rw [h0, hq11, hkM]
      omega
    · omega
  have hsum : M < (st.q0 + k * st.q1) + st.q1 := by
    have h1 := Nat.div_add_mod (M - st.q0) st.q1
    rw [← hk] at h1
    have h1' : k * st.q1 + (M - st.q0) % st.q1 = M - st.q0 := by
      rw [mul_comm] at h1
      exact h1
    have h2 : (M - st.q0) % st.q1 < st.q1 := Nat.mod_lt _ (by omega)
    omega
  have hka : k < st.n / st.d := by
    by_contra hcon
    push_neg at hcon
    have hmul := Nat.mul_le_mul_right st.q1 hcon
    omega
  -- integer casts of the invariant
  have hnumZ : (st.p1 : ℤ) * st.n + st.p0 * st.d = (num : ℤ) := by exact_mod_cast hinv.hnum
  have hdenZ : (st.q1 : ℤ) * st.n + st.q0 * st.d = (den : ℤ) := by exact_mod_cast hinv.hden
  have hadZ : ((st.n / st.d : ℕ) : ℤ) * st.d ≤ (st.n : ℤ) := by
    exact_mod_cast Nat.div_mul_le_self st.n st.d
  have hkaZ : (k : ℤ) + 1 ≤ ((st.n / st.d : ℕ) : ℤ) := by exact_mod_cast hka
  have hd1Z : (1 : ℤ) ≤ (st.d : ℤ) := by exact_mod_cast hd1
  have hnkd : (st.d : ℤ) ≤ (st.n : ℤ) - k * st.d := by
    have hstep : ((k : ℤ) + 1) * st.d ≤ ((st.n / st.d : ℕ) : ℤ) * st.d :=
      mul_le_mul_of_nonneg_right hkaZ (by positivity)
    nlinarith [hadZ, hstep]
  -- positivity of the rational denominators
  have hdpos : (0 : ℚ) < (den : ℚ) := by exact_mod_cast (show 0 < den by omega)
  have hq1pos : (0 : ℚ) < (st.q1 : ℚ) := by exact_mod_cast (show 0 < st.q1 by omega)
  have hD1pos : (0 : ℚ) < ((st.q0 + k * st.q1 : ℕ) : ℚ) := by
    exact_mod_cast (show 0 < st.q0 + k * st.q1 by omega)
  -- denominators of the two candidates are within the bound
  have hc2den : ((st.p1 : ℚ) / (st.q1 : ℚ)).den ≤ M := by
    have h := den_div_le (st.p1 : ℤ) st.q1 (by omega)
    rw [Int.cast_natCast] at h
    exact le_trans h hinv.hq1M
  have hc1den : (((st.p0 + k * st.p1 : ℕ) : ℚ) / ((st.q0 + k * st.q1 : ℕ) : ℚ)).den ≤ M := by
    have h := den_div_le ((st.p0 + k * st.p1 : ℕ) : ℤ) (st.q0 + k * st.q1) (by omega)
    rw [Int.cast_natCast] at h
    exact le_trans h hkq
  refine ⟨hc1den, hc2den, ?_⟩
  intro r hr1 hr2 y hy
  rcases hinv.hdet with hc | hc
  · -- determinant +1: the final convergent lies below x, the semiconvergent above
    have hdetZ : (st.p0 : ℤ) * st.q1 - st.p1 * st.q0 = 1 := by
      have hcZ : (st.p0 : ℤ) * st.q1 = (st.p1 : ℤ) * st.q0 + 1 := by exact_mod_cast hc
      linarith
    have key2 : (num : ℤ) * st.q1 - st.p1 * den = st.d := by
      linear_combination (-(st.q1 : ℤ)) * hnumZ + (st.p1 : ℤ) * hdenZ + (st.d : ℤ) * hdetZ
    have key1 : ((st.p0 : ℤ) + k * st.p1) * den - num * ((st.q0 : ℤ) + k * st.q1)
        = st.n - k * st.d := by
      linear_combination ((st.q0 : ℤ) + k * st.q1) * hnumZ
        - ((st.p0 : ℤ) + k * st.p1) * hdenZ + ((st.n : ℤ) - k * st.d) * hdetZ
    have hc2x : (st.p1 : ℚ) / (st.q1 : ℚ) ≤ x := by
      rw [hx, div_le_div_iff hq1pos hdpos]
      have hZ : (st.p1 : ℤ) * den ≤ (num : ℤ) * st.q1 := by linarith [key2, hd1Z]
      exact_mod_cast hZ
    have hxc1 : x ≤ ((st.p0 + k * st.p1 : ℕ) : ℚ) / ((st.q0 + k * st.q1 : ℕ) : ℚ) := by
      rw [hx, div_le_div_iff hdpos hD1pos]
      have hZ : (num : ℤ) * ((st.q0 : ℤ) + k * st.q1) ≤ ((st.p0 : ℤ) + k * st.p1) * den := by
        linarith [key1, hnkd, hd1Z]
      push_cast
      exact_mod_cast hZ
    have hdetPair : (((st.p0 + k * st.p1 : ℕ)) : ℤ) * st.q1
        - ((st.p1 : ℕ) : ℤ) * ((st.q0 + k * st.q1 : ℕ)) = 1 := by
      push_cast
      linear_combination hdetZ
    exact pair_best x M st.p1 (st.p0 + k * st.p1) st.q1 (st.q0 + k * st.q1)
      (by omega) (by omega) (by omega) hdetPair hc2x hxc1 r hr2 hr1 y hy
  · -- determinant -1: the semiconvergent lies below x, the final convergent above
    have hdetZ : (st.p1 : ℤ) * st.q0 - st.p0 * st.q1 = 1 := by
      have hcZ : (st.p1 : ℤ) * st.q0 = (st.p0 : ℤ) * st.q1 + 1 := by exact_mod_cast hc
      linarith
    have key2 : (st.p1 : ℤ) * den - num * st.q1 = st.d := by
      linear_combination (st.q1 : ℤ) * hnumZ - (st.p1 : ℤ) * hdenZ + (st.d : ℤ) * hdetZ
    have key1 : (num : ℤ) * ((st.q0 : ℤ) + k * st.q1) - ((st.p0 : ℤ) + k * st.p1) * den
        = st.n - k * st.d := by
      linear_combination (-((st.q0 : ℤ) + k * st.q1)) * hnumZ
        + ((st.p0 : ℤ) + k * st.p1) * hdenZ + ((st.n : ℤ) - k * st.d) * hdetZ
    have hc1x : ((st.p0 + k * st.p1 : ℕ) : ℚ) / ((st.q0 + k * st.q1 : ℕ) : ℚ) ≤ x := by
      rw [hx, div_le_div_iff hD1pos hdpos]
      have hZ : ((st.p0 : ℤ) + k * st.p1) * den ≤ (num : ℤ) * ((st.q0 : ℤ) + k * st.q1) := by
        linarith [key1, hnkd, hd1Z]
      push_cast
      exact_mod_cast hZ
    have hxc2 : x ≤ (st.p1 : ℚ) / (st.q1 : ℚ) := by
      rw [hx, div_le_div_iff hdpos hq1pos]
      have hZ : (num : ℤ) * st.q1 ≤ (st.p1 : ℤ) * den := by linarith [key2, hd1Z]
      exact_mod_cast hZ
    have hdetPair : ((st.p1 : ℕ) : ℤ) * ((st.q0 + k * st.q1 : ℕ))
        - (((st.p0 + k * st.p1 : ℕ)) : ℤ) * st.q1 = 1 := by
      push_cast
      linear_combination hdetZ
    exact pair_best x M (st.p0 + k * st.p1) st.p1 (st.q0 + k * st.q1) st.q1
      (by omega) (by omega) (by omega) hdetPair hc1x hxc2 r hr1 hr2 y hy

theorem limit_denominator_spec (x : ℚ) (M : ℕ) (hx0 : 0 ≤ x) (hx1 : x < 1) (hM : 1 ≤ M) :
    (limit_denominator x M).den ≤ M ∧
    ∀ y : ℚ, y.den ≤ M → |x - limit_denominator x M| ≤ |x - y| := by
  unfold limit_denominator
  by_cases hden : x.den ≤ M
  · rw [if_pos hden]
    exact ⟨hden, fun y _ => by simpa using abs_nonneg (x - y)⟩
  · rw [if_neg hden]
    push_neg at hden
    dsimp only
    set num := x.num.toNat with hnumdef
    have hnn : 0 ≤ x.num := Rat.num_nonneg.mpr hx0
    have hnumcast : (num : ℤ) = x.num := Int.toNat_of_nonneg hnn
    have hnd : num < x.den := by
      have hdq : (0 : ℚ) < (x.den : ℚ) := by exact_mod_cast x.pos
      have h := Rat.num_div_den x
      rw [← h, div_lt_one hdq] at hx1
      have hlt : x.num < (x.den : ℤ) := by exact_mod_cast hx1
      omega
    have hnum1 : 1 ≤ num := by
      by_contra hcon
      push_neg at hcon
      have h0 : x.num = 0 := by omega
      have hx00 : x = 0 := Rat.num_eq_zero.mp h0
      rw [hx00, Rat.den_zero] at hden
      omega
    have hxeq : x = (num : ℚ) / (x.den : ℚ) := by
      conv_lhs => rw [← Rat.num_div_den x]
      congr 1
      rw [← hnumcast]
      push_cast
      ring
    have hinv2 : LdInv M num x.den ⟨1, 0, 0, 1, x.den, num⟩ := by
      refine ⟨hnum1, hnd, ?_, le_refl 1, Nat.zero_le 1, hM, fun _ => rfl, ?_, ?_,
        Or.inl (by norm_num)⟩
      · show Nat.gcd x.den num = 1
        have hnatabs : num = x.num.natAbs := by omega
        rw [hnatabs, Nat.gcd_comm]
        exact x.reduced
      · show 1 * x.den + 0 * num = x.den
        ring
      · show 0 * x.den + 1 * num = num
        ring
    rw [ldLoop_start M num x.den hM hnum1 hnd]
    set st := ldLoop M x.den ⟨1, 0, 0, 1, x.den, num⟩ with hst
    have hinv : LdInv M num x.den st :=
      (ldLoop_inv M num x.den hden x.den ⟨1, 0, 0, 1, x.den, num⟩ hinv2 (le_of_lt hnd)).1
    have hbreak : M < st.q0 + st.n / st.d * st.q1 :=
      (ldLoop_inv M num x.den hden x.den ⟨1, 0, 0, 1, x.den, num⟩ hinv2 (le_of_lt hnd)).2
    set k := (M - st.q0) / st.q1 with hk
    obtain ⟨hc1den, hc2den, hbest⟩ := ld_final M num x.den x st k hM hden hinv hbreak hxeq hk
    by_cases hch : |(st.p1 : ℚ) / (st.q1 : ℚ) - x| ≤
        |((st.p0 + k * st.p1 : ℕ) : ℚ) / ((st.q0 + k * st.q1 : ℕ) : ℚ) - x|
    · rw [if_pos hch]
      refine ⟨hc2den, ?_⟩
      intro y hy
      refine hbest _ ?_ ?_ y hy
      · rw [abs_sub_comm x, abs_sub_comm x]
        exact hch
      · exact le_refl _
    · rw [if_neg hch]
      push_neg at hch
      refine ⟨hc1den, ?_⟩
      intro y hy
      refine hbest _ ?_ ?_ y hy
      · exact le_refl _
      · rw [abs_sub_comm x, abs_sub_comm x]
        exact le_of_lt hch

/-- C2: for every measured bitstring of width `2n` and every `N > 1`,
`measurementToPeriod` returns the denominator of a closest rational
approximation, with denominator at most `N`, to the phase fraction
`(bitstring as integer) / 2^(2n)`: the rational it reduces is within the
bound and no rational with denominator at most `N` is strictly closer; in
particular for `N = 15` (`n = 4`) a measurement encoding phase `1/4` over
`2n` bits yields period 4. -/
theorem measurement_to_period_best_approximation :
    (∀ (N : ℕ) (meas : List Bool), 1 < N → meas.length = 2 * bitLen N →
      ∃ r : ℚ, classical_post_processing N meas = r.den ∧ r.den ≤ N ∧
        ∀ y : ℚ, y.den ≤ N →
          |(bitsToNat meas : ℚ) / 2 ^ (2 * bitLen N) - r| ≤
            |(bitsToNat meas : ℚ) / 2 ^ (2 * bitLen N) - y|) ∧
    classical_post_processing 15 [false, true, false, false, false, false, false, false] = 4 := by
  constructor
  · intro N meas hN hlen
    have hpow : (0 : ℚ) < 2 ^ (2 * bitLen N) := by positivity
    have hx0 : (0 : ℚ) ≤ (bitsToNat meas : ℚ) / 2 ^ (2 * bitLen N) := by positivity
    have hx1 : (bitsToNat meas : ℚ) / 2 ^ (2 * bitLen N) < 1 := by
      rw [div_lt_one hpow]
      have h := bitsToNat_lt meas
      rw [hlen] at h
      exact_mod_cast h
    obtain ⟨h1, h2⟩ := limit_denominator_spec
      ((bitsToNat meas : ℚ) / 2 ^ (2 * bitLen N)) N hx0 hx1 (by omega)
    exact ⟨limit_denominator ((bitsToNat meas : ℚ) / 2 ^ (2 * bitLen N)) N, rfl, h1, h2⟩
  · exact cpp_fifteen_sixtyfour

/-- Closed witness for C2 at `N = 15` and the measurement `01000000`. -/
theorem measurement_to_period_best_approximation_witness :
    ∃ r : ℚ,
      classical_post_processing 15 [false, true, false, false, false, false, false, false]
        = r.den ∧ r.den ≤ 15 ∧
      ∀ y : ℚ, y.den ≤ 15 →
        |(bitsToNat [false, true, false, false, false, false, false, false] : ℚ)
            / 2 ^ (2 * bitLen 15) - r| ≤
          |(bitsToNat [false, true, false, false, false, false, false, false] : ℚ)
            / 2 ^ (2 * bitLen 15) - y| :=
  measurement_to_period_best_approximation.1 15
    [false, true, false, false, false, false, false, false] (by norm_num) (by decide)
